import Mathlib

/-!
Verification of the relevance-retrieval engine of a browser-based
document-chat application.  Text is modelled as `List Char`.  Two code
lineages are embedded:

* the page-tracking lineage (`findRelevantContextNav`, from the
  `findRelevantContext` in `Navbar.tsx`, whose string-only twin is
  `findRelevantContext` in `pdfService.ts`): an exact topic-heading stage,
  a whole-question substring fallback, page attribution, and a sentinel
  message;
* the keyword-scoring lineage (`findRelevantContextKW`, from the
  `findRelevantContext` in `part_006` / `part_009`): a summarization
  branch, keyword extraction, per-paragraph frequency scoring with a
  distinct-keyword bonus, and prefix fallbacks.

The page-tracking lineage interpolates the question unescaped into a
`RegExp`; the embedding implements that pattern's JavaScript semantics
for questions built from literal characters and the `.` wildcard, and is
partial (`Option`-valued, `none`) on questions with other regex
metacharacters, where the source can throw a `SyntaxError`.  In the
keyword lineage the interpolated needles are stripped to `[\w\s]` first
and are therefore always literal.  JavaScript's stable
`Array.prototype.sort` is embedded as insertion sort.
-/

set_option maxRecDepth 20000

abbrev Str := List Char

/-- ASCII lowering, the model of `String.prototype.toLowerCase`. -/
def toLow (l : Str) : Str := l.map Char.toLower

/-- The model of `String.prototype.trim`. -/
def trim (l : Str) : Str :=
  ((l.dropWhile Char.isWhitespace).reverse.dropWhile Char.isWhitespace).reverse

/-- `isLeading n h` holds when `n` is an initial run of `h`. -/
def isLeading : Str → Str → Bool
  | [], _ => true
  | _ :: _, [] => false
  | a :: as, b :: bs => a = b && isLeading as bs

/-- The model of `String.prototype.includes hay needle`. -/
def containsSub : Str → Str → Bool
  | [], needle => needle = ([] : Str)
  | c :: rest, needle => isLeading needle (c :: rest) || containsSub rest needle

/-- Number of non-overlapping left-to-right occurrences: the model of
`hay.match(new RegExp(needle, 'gi')).length` for a literal lowercase
needle matched against a lowercase haystack (an empty pattern matches at
every position, as in JavaScript). -/
def countOccurAux (n : Str) : Str → Nat → Nat
  | [], _ => 0
  | c :: rest, 0 =>
    if isLeading n (c :: rest) then 1 + countOccurAux n rest (n.length - 1)
    else countOccurAux n rest 0
  | _ :: rest, k + 1 => countOccurAux n rest k

def countOccur (n hay : Str) : Nat :=
  if n = [] then hay.length + 1 else countOccurAux n hay 0

/-- Split on maximal runs of two or more newline characters: the model of
`text.split(/\n\n+/)`. -/
def splitBlankAux : Bool → Str → Str → List Str
  | _, acc, [] => [acc.reverse]
  | false, acc, '\n' :: '\n' :: rest => acc.reverse :: splitBlankAux true [] rest
  | true, acc, '\n' :: rest => splitBlankAux true acc rest
  | false, acc, c :: rest => splitBlankAux false (c :: acc) rest
  | true, acc, c :: rest => splitBlankAux false (c :: acc) rest

def splitBlank (l : Str) : List Str := splitBlankAux false [] l

/-- The Text Segmenter:
`pdfText.split(/\n\n+/).filter(p => p.trim().length > 0)`. -/
def paragraphs (text : Str) : List Str :=
  (splitBlank text).filter (fun p => 0 < (trim p).length)

/-- The model of `list.join('\n\n')`. -/
def joinBlank : List Str → Str
  | [] => []
  | [p] => p
  | p :: ps => p ++ '\n' :: '\n' :: joinBlank ps

/-- The normalised question, `question.toLowerCase().trim()`. -/
def searchTermOf (q : Str) : Str := trim (toLow q)

/-! ### Query Analyzer (`extractKeywords`) -/

/-- The fixed stopword list of `extractKeywords`. -/
def stopwordList : List Str :=
  (["what", "when", "where", "which", "who", "whom", "whose", "why", "how",
    "does", "did", "do", "is", "are", "was", "were", "am", "be", "being", "been",
    "can", "could", "will", "would", "shall", "should", "may", "might", "must",
    "about", "with", "for", "to", "from", "in", "on", "at", "by", "and", "or",
    "the", "a", "an", "this", "that", "these", "those", "tell", "explain", "describe",
    "provide", "give", "me", "please", "information", "details", "regarding"]).map
    String.toList

/-- JavaScript `\w`: ASCII letters, digits and underscore. -/
def isWordChar (c : Char) : Bool := c.isAlphanum || c = '_'

/-- The model of `question.replace(/[^\w\s]/g, '')`. -/
def stripNonWord (l : Str) : Str :=
  l.filter (fun c => isWordChar c || c.isWhitespace)

/-- The model of `s.split(' ')` (single-space separator). -/
def splitSpAux : Str → Str → List Str
  | acc, [] => [acc.reverse]
  | acc, ' ' :: rest => acc.reverse :: splitSpAux [] rest
  | acc, c :: rest => splitSpAux (c :: acc) rest

def splitSp (l : Str) : List Str := splitSpAux [] l

/-- The raw token sequence of the question, before any filtering. -/
def tokensOf (q : Str) : List Str := splitSp (stripNonWord q)

/-- The `words` array of `extractKeywords`: tokens of length > 2 that are
not stopwords, lowercased (filters run before the lowering, as in the
source). -/
def wordsOf (q : Str) : List Str :=
  (((tokensOf q).filter (fun w => 2 < w.length)).filter
    (fun w => ¬ w ∈ stopwordList)).map toLow

/-- The phrase-building loop of `extractKeywords`: for each index of the
(filtered) `words` array, a 2-word phrase and, when possible, a 3-word
phrase, each guarded by per-token stopword tests. -/
def phrasesAux : List Str → List Str
  | w1 :: w2 :: w3 :: rest =>
    (if ¬ w1 ∈ stopwordList ∧ ¬ w2 ∈ stopwordList then
      [w1 ++ ' ' :: w2] else [])
    ++ (if ¬ w1 ∈ stopwordList ∧ ¬ w2 ∈ stopwordList ∧ ¬ w3 ∈ stopwordList then
      [w1 ++ ' ' :: w2 ++ ' ' :: w3] else [])
    ++ phrasesAux (w2 :: w3 :: rest)
  | [w1, w2] =>
    if ¬ w1 ∈ stopwordList ∧ ¬ w2 ∈ stopwordList then [w1 ++ ' ' :: w2] else []
  | _ => []

def phrasesOf (q : Str) : List Str := phrasesAux (wordsOf q)

/-- First-occurrence deduplication, the model of `[...new Set(l)]`. -/
def dedupFirstAux (seen : List Str) : List Str → List Str
  | [] => []
  | x :: xs =>
    if x ∈ seen then dedupFirstAux seen xs else x :: dedupFirstAux (x :: seen) xs

def dedupFirst (l : List Str) : List Str := dedupFirstAux [] l

/-- `extractKeywords`: `[...new Set([...words, ...phrases])]`. -/
def extractKeywords (q : Str) : List Str := dedupFirst (wordsOf q ++ phrasesOf q)

/-! ### Exact topic-heading match (the `topicPattern` regex)

The source interpolates the question unescaped into
`new RegExp(`(^|\n|\d+\.|•|\*)\s*NEEDLE\b[:\s]`, 'i')`, so the
characters of the search term act as regular-expression source.  The
embedding implements the JavaScript semantics of this pattern for search
terms built from literal characters and the wildcard `.` (each an atom
matching exactly one character): the pattern is then always a valid regex
and a match exists at some split of the lowercased paragraph into a part
ending in a marker and a remainder of optional whitespace, the needle
atoms, a word boundary and a colon or whitespace character.  A search term
containing any other metacharacter (`\ ^ $ | ? * + ( ) [ ] { }`) can
throw a `SyntaxError` or alter the pattern arbitrarily; the retrieval
model returns `none` there — that behaviour is outside the embedding. -/

/-- The regex metacharacters of the interpolated pattern position. -/
def regexMetaChars : Str :=
  ['\\', '^', '$', '.', '|', '?', '*', '+', '(', ')', '[', ']', '\x7b', '\x7d']

/-- Search terms the embedding models exactly: only literal characters
and the `.` wildcard. -/
def regexSupported (s : Str) : Bool :=
  s.all (fun c => c = '.' || ¬ c ∈ regexMetaChars)

/-- Search terms free of every regex metacharacter: the interpolated
pattern then matches the search term literally. -/
def regexMetaFree (s : Str) : Bool := s.all (fun c => ¬ c ∈ regexMetaChars)

/-- One needle atom against one haystack character: `.` matches anything
but a line terminator, any other (supported) character matches itself. -/
def atomMatches (a c : Char) : Bool :=
  if a = '.' then ¬ (c = '\n' || c = '\r' || c = '\u2028' || c = '\u2029')
  else a = c

/-- The needle atoms match an initial run of `s` (a fixed-length match,
every atom consuming one character). -/
def atomsLead : Str → Str → Bool
  | [], _ => true
  | _ :: _, [] => false
  | a :: as, c :: cs => atomMatches a c && atomsLead as cs

/-- Can a match of `NEEDLE\b[:\s]` start exactly here?  The `\b` sits
between the needle's match and a `[:\s]` character (which is non-word),
so it holds exactly when the last haystack character consumed by the
needle is a word character; an empty needle leaves non-word characters on
both sides of the boundary and never matches. -/
def needleHere (needle s : Str) : Bool :=
  match needle with
  | [] => false
  | _ :: _ =>
    atomsLead needle s &&
      (match (s.take needle.length).getLast? with
       | some c => isWordChar c
       | none => false) &&
      (match (s.drop needle.length).head? with
       | some d => d = ':' || d.isWhitespace
       | none => false)

/-- `\s*NEEDLE\b[:\s]` anchored at the start of `s`. -/
def matchFrom (needle : Str) : Str → Bool
  | [] => needleHere needle []
  | c :: rest => needleHere needle (c :: rest) || (c.isWhitespace && matchFrom needle rest)

/-- Does the part of the string before the match position end in one of
the alternatives of `(^|\n|\d+\.|•|\*)`? -/
def markerEnd (a : Str) : Bool :=
  match a.getLast? with
  | none => true
  | some '\n' => true
  | some '•' => true
  | some '*' => true
  | some '.' =>
    (match a.dropLast.getLast? with
     | some d => d.isDigit
     | none => false)
  | some _ => false

/-- `topicPattern.test(paragraph)`: some split of the lowercased
paragraph admits a marker followed by the needle match. -/
def headingMatch (needle p : Str) : Bool :=
  (List.range ((toLow p).length + 1)).any
    (fun i => markerEnd ((toLow p).take i) && matchFrom needle ((toLow p).drop i))

/-! ### The claims' literal reading of the heading stage

The claims describe the heading stage as an occurrence of the question
text itself (a literal needle).  These definitions formalise that
reading; for metacharacter-free search terms they agree with the model
above. -/

/-- The claims' wording of `needleHere`: the question text itself,
followed by a word boundary and `:` or whitespace. -/
def litNeedleHere (needle s : Str) : Bool :=
  match needle with
  | [] => false
  | _ :: _ =>
    isLeading needle s &&
      (match needle.getLast? with
       | some c => isWordChar c
       | none => false) &&
      (match (s.drop needle.length).head? with
       | some d => d = ':' || d.isWhitespace
       | none => false)

def litMatchFrom (needle : Str) : Str → Bool
  | [] => litNeedleHere needle []
  | c :: rest =>
    litNeedleHere needle (c :: rest) || (c.isWhitespace && litMatchFrom needle rest)

/-- The claims' literal heading-style occurrence of the question text. -/
def litHeadingMatch (needle p : Str) : Bool :=
  (List.range ((toLow p).length + 1)).any
    (fun i => markerEnd ((toLow p).take i) && litMatchFrom needle ((toLow p).drop i))

/-! ### Page-tracking lineage (`Navbar.tsx`) -/

structure PageContent where
  text : Str
  pageNum : Nat
deriving DecidableEq

structure ContextResult where
  context : Str
  pages : List Nat
deriving DecidableEq

/-- Ascending numeric sort, the model of `pages.sort((a, b) => a - b)`. -/
def sortAsc (l : List Nat) : List Nat := List.insertionSort (fun a b => a ≤ b) l

/-- The first page, in record order, whose raw text contains the first
100 characters of the paragraph. -/
def firstPageFor (pcs : List PageContent) (p : Str) : Option Nat :=
  (pcs.find? (fun pc => containsSub pc.text (p.take 100))).map PageContent.pageNum

/-- One step of the page-collection loop: the first matching page of the
paragraph is appended when it is not already recorded. -/
def recordPage (pcs : List PageContent) (acc : List Nat) (p : Str) : List Nat :=
  match firstPageFor pcs p with
  | some n => if n ∈ acc then acc else acc ++ [n]
  | none => acc

def collectPagesAux (pcs : List PageContent) (acc : List Nat) (rel : List Str) :
    List Nat :=
  rel.foldl (recordPage pcs) acc

/-- The page-collection loop of `findRelevantContext` in `Navbar.tsx`:
each paragraph is attributed to its first matching page, recorded once. -/
def collectPages (relevant : List Str) (pcs : List PageContent) : List Nat :=
  collectPagesAux pcs [] relevant

/-- The matched pages, deduplicated and sorted ascending. -/
def locatePages (relevant : List Str) (pcs : List PageContent) : List Nat :=
  sortAsc (collectPages relevant pcs)

/-- The `exactMatches` array: paragraphs passing the heading pattern. -/
def exactMatchesNav (text q : Str) : List Str :=
  (paragraphs text).filter (fun p => headingMatch (searchTermOf q) p)

/-- The `relatedMatches` array: paragraphs whose lowercased text contains
the whole search term. -/
def relatedMatchesNav (text q : Str) : List Str :=
  (paragraphs text).filter (fun p => containsSub (toLow p) (searchTermOf q))

/-- The `relevantParagraphs` selection: exact matches when any exist,
otherwise substring matches when any exist, otherwise nothing. -/
def relevantParagraphsNav (text q : Str) : List Str :=
  if exactMatchesNav text q = [] then
    if relatedMatchesNav text q = [] then [] else relatedMatchesNav text q
  else exactMatchesNav text q

/-- The no-match sentinel
`No specific information found about "<searchTerm>" in the document.`. -/
def noInfoMsg (s : Str) : Str :=
  ("No specific information found about \"").toList ++ s ++
    ("\" in the document.").toList

/-- `findRelevantContext` of `Navbar.tsx`.  The empty-document guard runs
before the regex construction, exactly as in the source (the filter whose
callback builds the `RegExp` only runs on a non-whitespace document);
`none` marks search terms with unsupported metacharacters, where the
source's `new RegExp` can throw a `SyntaxError` instead of returning. -/
def findRelevantContextNav (text : Str) (pcs : List PageContent) (q : Str) :
    Option ContextResult :=
  if trim text = [] then some ⟨[], []⟩
  else if ¬ regexSupported (searchTermOf q) then none
  else if relevantParagraphsNav text q = [] then some ⟨noInfoMsg (searchTermOf q), []⟩
  else some ⟨joinBlank (relevantParagraphsNav text q),
        locatePages (relevantParagraphsNav text q) pcs⟩

/-- `findRelevantContext` of `pdfService.ts` (same selection logic, no
page tracking; same unsupported-metacharacter domain). -/
def findRelevantContextPdf (text q : Str) : Option Str :=
  if trim text = [] then some []
  else if ¬ regexSupported (searchTermOf q) then none
  else if relevantParagraphsNav text q = [] then some (noInfoMsg (searchTermOf q))
  else some (joinBlank (relevantParagraphsNav text q))

/-! ### Keyword-scoring lineage (`part_006` / `part_009`) -/

/-- A scored paragraph; `idx` records the position of the paragraph in
the paragraph array (the comparator never looks at it, it only certifies
stability). -/
structure Scored where
  idx : Nat
  para : Str
  score : Nat

/-- The score of one paragraph: summed keyword occurrence counts plus
twice the number of distinct keywords present. -/
def scoreParagraph (kws : List Str) (pLow : Str) : Nat :=
  (kws.map (fun k => countOccur k pLow)).sum
    + 2 * (kws.filter (fun k => containsSub pLow k)).length

/-- Position-tagging of a list. -/
def withIdx : Nat → List Str → List (Nat × Str)
  | _, [] => []
  | n, x :: xs => (n, x) :: withIdx (n + 1) xs

/-- The `scoredParagraphs` array of `part_006`. -/
def scoredOf (text q : Str) : List Scored :=
  (withIdx 0 (paragraphs text)).map
    (fun ip => ⟨ip.1, ip.2, scoreParagraph (extractKeywords (searchTermOf q)) (toLow ip.2)⟩)

/-- JavaScript's stable `sort((a, b) => b.score - a.score)`: a stable
sort by score descending. -/
def sortDesc (l : List Scored) : List Scored :=
  List.insertionSort (fun a b => b.score ≤ a.score) l

/-- `.sort(...).slice(0, 5).filter(item => item.score > 0)`. -/
def topScored (text q : Str) : List Scored :=
  ((sortDesc (scoredOf text q)).take 5).filter (fun t => 0 < t.score)

/-- The `topParagraphs` array of `part_006`. -/
def topParagraphs (text q : Str) : List Str :=
  (topScored text q).map Scored.para

/-- `findRelevantContext` of `part_006` (identical in `part_009`). -/
def findRelevantContextKW (text q : Str) : Str :=
  if trim text = [] then []
  else if containsSub (searchTermOf q) ("summarize").toList
       || containsSub (searchTermOf q) ("summary").toList then
    (if 8000 < text.length then text.take 8000 else text)
  else if extractKeywords (searchTermOf q) = [] then
    (if 5000 < text.length then text.take 5000 else text)
  else if topParagraphs text q = [] then
    (if 5000 < text.length then text.take 5000 else text)
  else joinBlank (topParagraphs text q)

/-! ### Claim-side formalisations for the phrase property -/

/-- Space-joining of a token window. -/
def joinSp : List Str → Str
  | [] => []
  | [w] => w
  | w :: ws => w ++ ' ' :: joinSp ws

/-- `isWindowOf mid l`: `mid` is a block of consecutive elements of `l`. -/
def isWindowOf (mid l : List Str) : Prop := ∃ s t, s ++ mid ++ t = l

/-- Formalisation of the claim's wording: the space-joins of every 2-token
and 3-token window of a token sequence (the candidate phrases the claim
allows, before its stopword condition). -/
def windowJoins : List Str → List Str
  | w1 :: w2 :: rest =>
    (w1 ++ ' ' :: w2) ::
      (match rest with
       | w3 :: _ => [w1 ++ ' ' :: w2 ++ ' ' :: w3]
       | [] => [])
      ++ windowJoins (w2 :: rest)
  | _ => []

/-! ### Basic lemmas about the text utilities -/

theorem containsSub_nil (hay : Str) : containsSub hay [] = true := by
  cases hay with
  | nil => rfl
  | cons c rest => simp [containsSub, isLeading]

theorem mem_of_isLeading : ∀ {n h : Str}, isLeading n h = true → ∀ c ∈ n, c ∈ h := by
  intro n
  induction n with
  | nil => intro h _ c hc; cases hc
  | cons a as ih =>
    intro h hl c hc
    cases h with
    | nil => simp [isLeading] at hl
    | cons b bs =>
      simp only [isLeading, Bool.and_eq_true, decide_eq_true_eq] at hl
      obtain ⟨rfl, h2⟩ := hl
      rcases List.mem_cons.mp hc with rfl | hc2
      · exact List.mem_cons_self _ _
      · exact List.mem_cons_of_mem _ (ih h2 c hc2)

theorem mem_of_containsSub : ∀ {hay n : Str}, containsSub hay n = true → ∀ c ∈ n, c ∈ hay := by
  intro hay
  induction hay with
  | nil =>
    intro n h c hc
    simp only [containsSub, decide_eq_true_eq] at h
    subst h; cases hc
  | cons b bs ih =>
    intro n h c hc
    simp only [containsSub, Bool.or_eq_true] at h
    rcases h with h | h
    · exact mem_of_isLeading h c hc
    · exact List.mem_cons_of_mem _ (ih h c hc)

theorem forall_mem_dropWhile_iff (p : Char → Bool) (l : Str) :
    (∀ c ∈ l.dropWhile p, p c) ↔ ∀ c ∈ l, p c := by
  constructor
  · intro h c hc
    rw [← List.takeWhile_append_dropWhile p l] at hc
    rcases List.mem_append.mp hc with h1 | h2
    · exact List.mem_takeWhile_imp h1
    · exact h c h2
  · intro h c hc
    exact h c (List.dropWhile_subset p hc)

theorem trim_eq_nil_iff (l : Str) : trim l = [] ↔ ∀ c ∈ l, c.isWhitespace = true := by
  unfold trim
  rw [List.reverse_eq_nil_iff, List.dropWhile_eq_nil_iff]
  simp only [List.mem_reverse]
  exact forall_mem_dropWhile_iff _ _

theorem mem_splitBlankAux :
    ∀ (mode : Bool) (acc l s : Str), s ∈ splitBlankAux mode acc l → ∀ c ∈ s, c ∈ acc ∨ c ∈ l := by
  intro mode acc l
  induction mode, acc, l using splitBlankAux.induct with
  | case1 mode acc =>
    intro s hs c hc
    simp only [splitBlankAux, List.mem_singleton] at hs
    subst hs
    exact Or.inl (List.mem_reverse.mp hc)
  | case2 acc rest ih =>
    intro s hs c hc
    simp only [splitBlankAux, List.mem_cons] at hs
    rcases hs with rfl | hs
    · exact Or.inl (List.mem_reverse.mp hc)
    · rcases ih s hs c hc with h | h
      · cases h
      · exact Or.inr (List.mem_cons_of_mem _ (List.mem_cons_of_mem _ h))
  | case3 acc rest ih =>
    intro s hs c hc
    simp only [splitBlankAux] at hs
    rcases ih s hs c hc with h | h
    · exact Or.inl h
    · exact Or.inr (List.mem_cons_of_mem _ h)
  | case4 acc d rest hne ih =>
    intro s hs c hc
    rw [splitBlankAux] at hs
    · rcases ih s hs c hc with h | h
      · rcases List.mem_cons.mp h with rfl | h2
        · exact Or.inr (List.mem_cons_self _ _)
        · exact Or.inl h2
      · exact Or.inr (List.mem_cons_of_mem _ h)
    · exact hne
  | case5 acc d rest hne ih =>
    intro s hs c hc
    rw [splitBlankAux] at hs
    · rcases ih s hs c hc with h | h
      · rcases List.mem_cons.mp h with rfl | h2
        · exact Or.inr (List.mem_cons_self _ _)
        · exact Or.inl h2
      · exact Or.inr (List.mem_cons_of_mem _ h)
    · exact hne

theorem needleHere_nil (s : Str) : needleHere [] s = false := rfl

theorem matchFrom_nil : ∀ s : Str, matchFrom [] s = false := by
  intro s
  induction s with
  | nil => rfl
  | cons c rest ih => simp [matchFrom, needleHere_nil, ih]

theorem headingMatch_nil (p : Str) : headingMatch [] p = false := by
  unfold headingMatch
  rw [List.any_eq_false]
  intro i _
  simp [matchFrom_nil]

theorem atomsLead_eq_isLeading : ∀ {n : Str}, '.' ∉ n → ∀ s, atomsLead n s = isLeading n s := by
  intro n
  induction n with
  | nil =>
    intro _ s
    cases s <;> rfl
  | cons a as ih =>
    intro h s
    have ha : ¬ a = '.' := fun hh => h (hh ▸ List.mem_cons_self _ _)
    have h2 : '.' ∉ as := fun hh => h (List.mem_cons_of_mem _ hh)
    cases s with
    | nil => rfl
    | cons c cs =>
      show (atomMatches a c && atomsLead as cs) = isLeading (a :: as) (c :: cs)
      unfold atomMatches
      rw [if_neg ha, ih h2 cs]
      rfl

theorem take_eq_of_isLeading : ∀ {n s : Str}, isLeading n s = true → s.take n.length = n := by
  intro n
  induction n with
  | nil => intro s _; rfl
  | cons a as ih =>
    intro s h
    cases s with
    | nil => simp [isLeading] at h
    | cons c cs =>
      simp only [isLeading, Bool.and_eq_true, decide_eq_true_eq] at h
      obtain ⟨rfl, h2⟩ := h
      rw [List.length_cons, List.take_succ_cons, ih h2]

theorem needleHere_eq_lit {needle : Str} (h : '.' ∉ needle) (s : Str) :
    needleHere needle s = litNeedleHere needle s := by
  cases needle with
  | nil => rfl
  | cons a as =>
    unfold needleHere litNeedleHere
    rw [atomsLead_eq_isLeading h]
    cases hl : isLeading (a :: as) s with
    | false => simp
    | true => rw [take_eq_of_isLeading hl]

theorem matchFrom_eq_lit {needle : Str} (h : '.' ∉ needle) :
    ∀ s, matchFrom needle s = litMatchFrom needle s := by
  intro s
  induction s with
  | nil => simp [matchFrom, litMatchFrom, needleHere_eq_lit h]
  | cons c rest ih => simp [matchFrom, litMatchFrom, needleHere_eq_lit h, ih]

theorem headingMatch_eq_lit {needle : Str} (h : '.' ∉ needle) (p : Str) :
    headingMatch needle p = litHeadingMatch needle p := by
  unfold headingMatch litHeadingMatch
  congr 1
  funext i
  rw [matchFrom_eq_lit h]

theorem regexSupported_of_metaFree {s : Str} (h : regexMetaFree s = true) :
    regexSupported s = true := by
  unfold regexMetaFree at h
  unfold regexSupported
  rw [List.all_eq_true] at h ⊢
  intro c hc
  have h2 := h c hc
  simp only [Bool.or_eq_true]
  exact Or.inr h2

theorem dot_not_mem_of_metaFree {s : Str} (h : regexMetaFree s = true) : '.' ∉ s := by
  intro hmem
  unfold regexMetaFree at h
  rw [List.all_eq_true] at h
  have h2 := h '.' hmem
  simp only [decide_eq_true_eq] at h2
  exact h2 (by decide)

theorem exactMatchesNav_eq_lit {text q : Str}
    (hmeta : regexMetaFree (searchTermOf q) = true) :
    exactMatchesNav text q
      = (paragraphs text).filter (fun p => litHeadingMatch (searchTermOf q) p) := by
  unfold exactMatchesNav
  apply List.filter_congr
  intro p _
  rw [headingMatch_eq_lit (dot_not_mem_of_metaFree hmeta)]

theorem paragraphs_chars {text p : Str} (hp : p ∈ paragraphs text) : ∀ c ∈ p, c ∈ text := by
  have h1 : p ∈ splitBlank text := (List.mem_filter.mp hp).1
  intro c hc
  rcases mem_splitBlankAux false [] text p h1 c hc with h | h
  · cases h
  · exact h

theorem trim_ne_nil_of_mem_paragraphs {text p : Str} (hp : p ∈ paragraphs text) :
    trim text ≠ [] := by
  intro htext
  have hlen : 0 < (trim p).length := by
    simpa using ((List.mem_filter.mp hp).2)
  have hptrim : trim p ≠ [] := by
    intro h; rw [h] at hlen; simp at hlen
  rw [Ne, trim_eq_nil_iff] at hptrim
  push_neg at hptrim
  obtain ⟨c, hc, hcw⟩ := hptrim
  have hct : c ∈ text := paragraphs_chars hp c hc
  rw [trim_eq_nil_iff] at htext
  exact hcw (htext c hct)

/-! ### Stability of the descending sort -/

/-- The strict order certified for the sorted scored list: strictly
larger score, or equal scores in original document order. -/
def scoredBefore (a b : Scored) : Prop :=
  b.score < a.score ∨ (a.score = b.score ∧ a.idx < b.idx)

theorem pairwise_orderedInsert_scoredBefore (x : Scored) :
    ∀ l : List Scored, l.Pairwise scoredBefore → (∀ y ∈ l, x.idx < y.idx) →
      (List.orderedInsert (fun a b => b.score ≤ a.score) x l).Pairwise scoredBefore := by
  intro l
  induction l with
  | nil =>
    intro _ _
    simp [List.orderedInsert]
  | cons y ys ih =>
    intro hp hidx
    rw [List.orderedInsert]
    by_cases hc : y.score ≤ x.score
    · rw [if_pos hc]
      refine List.pairwise_cons.mpr ⟨?_, hp⟩
      intro z hz
      rcases List.mem_cons.mp hz with rfl | hz2
      · have h1 := hidx z (List.mem_cons_self _ _)
        unfold scoredBefore
        omega
      · have h1 := (List.pairwise_cons.mp hp).1 z hz2
        have h2 := hidx z (List.mem_cons_of_mem _ hz2)
        unfold scoredBefore at h1 ⊢
        omega
    · rw [if_neg hc]
      refine List.pairwise_cons.mpr ⟨?_, ?_⟩
      · intro z hz
        rcases (List.mem_orderedInsert _).mp hz with rfl | hz2
        · unfold scoredBefore
          omega
        · exact (List.pairwise_cons.mp hp).1 z hz2
      · exact ih (List.pairwise_cons.mp hp).2
          (fun y2 hy2 => hidx y2 (List.mem_cons_of_mem _ hy2))

theorem pairwise_sortDesc :
    ∀ l : List Scored, l.Pairwise (fun a b => a.idx < b.idx) →
      (sortDesc l).Pairwise scoredBefore := by
  intro l
  induction l with
  | nil =>
    intro _
    simp [sortDesc, List.insertionSort]
  | cons x xs ih =>
    intro hp
    unfold sortDesc List.insertionSort
    apply pairwise_orderedInsert_scoredBefore
    · have := ih (List.pairwise_cons.mp hp).2
      unfold sortDesc at this
      exact this
    · intro y hy
      have hmem : y ∈ xs := (List.perm_insertionSort _ xs).mem_iff.mp hy
      exact (List.pairwise_cons.mp hp).1 y hmem

/-! ### Lemmas about position tagging -/

theorem mem_withIdx_le :
    ∀ (n : Nat) (l : List Str) (ip : Nat × Str), ip ∈ withIdx n l → n ≤ ip.1 ∧ ip.2 ∈ l := by
  intro n l
  induction l generalizing n with
  | nil => intro ip h; cases h
  | cons x xs ih =>
    intro ip h
    rcases List.mem_cons.mp h with rfl | h2
    · exact ⟨Nat.le_refl _, List.mem_cons_self _ _⟩
    · have := ih (n + 1) ip h2
      exact ⟨by omega, List.mem_cons_of_mem _ this.2⟩

theorem get?_of_mem_withIdx :
    ∀ (n : Nat) (l : List Str) (ip : Nat × Str), ip ∈ withIdx n l →
      l.get? (ip.1 - n) = some ip.2 := by
  intro n l
  induction l generalizing n with
  | nil => intro ip h; cases h
  | cons x xs ih =>
    intro ip h
    rcases List.mem_cons.mp h with rfl | h2
    · simp
    · have h3 := ih (n + 1) ip h2
      have h4 := (mem_withIdx_le (n + 1) xs ip h2).1
      have h5 : ip.1 - n = (ip.1 - (n + 1)) + 1 := by omega
      rw [h5, List.get?_cons_succ]
      exact h3

theorem pairwise_withIdx :
    ∀ (n : Nat) (l : List Str), (withIdx n l).Pairwise (fun a b => a.1 < b.1) := by
  intro n l
  induction l generalizing n with
  | nil => exact List.Pairwise.nil
  | cons x xs ih =>
    refine List.pairwise_cons.mpr ⟨?_, ih (n + 1)⟩
    intro y hy
    have := (mem_withIdx_le (n + 1) xs y hy).1
    omega

theorem mem_withIdx_of_mem :
    ∀ (n : Nat) (l : List Str) (p : Str), p ∈ l → ∃ i, (i, p) ∈ withIdx n l := by
  intro n l
  induction l generalizing n with
  | nil => intro p h; cases h
  | cons x xs ih =>
    intro p h
    rcases List.mem_cons.mp h with rfl | h2
    · exact ⟨n, List.mem_cons_self _ _⟩
    · obtain ⟨i, hi⟩ := ih (n + 1) p h2
      exact ⟨i, List.mem_cons_of_mem _ hi⟩

/-! ### Lemmas about the scored pipeline -/

theorem scoredOf_pairwise_idx (text q : Str) :
    (scoredOf text q).Pairwise (fun a b => a.idx < b.idx) := by
  unfold scoredOf
  rw [List.pairwise_map]
  exact (pairwise_withIdx 0 (paragraphs text)).imp (fun h => h)

theorem mem_scoredOf {text q : Str} {t : Scored} (ht : t ∈ scoredOf text q) :
    (paragraphs text).get? t.idx = some t.para ∧
      t.score = scoreParagraph (extractKeywords (searchTermOf q)) (toLow t.para) := by
  unfold scoredOf at ht
  rcases List.mem_map.mp ht with ⟨ip, hip, rfl⟩
  refine ⟨?_, rfl⟩
  have h := get?_of_mem_withIdx 0 (paragraphs text) ip hip
  simpa using h

theorem para_mem_of_mem_scoredOf {text q : Str} {t : Scored} (ht : t ∈ scoredOf text q) :
    t.para ∈ paragraphs text := by
  unfold scoredOf at ht
  rcases List.mem_map.mp ht with ⟨ip, hip, rfl⟩
  exact (mem_withIdx_le 0 (paragraphs text) ip hip).2

theorem topScored_mem {text q : Str} {t : Scored} (ht : t ∈ topScored text q) :
    t ∈ scoredOf text q ∧ 0 < t.score := by
  unfold topScored at ht
  have h1 := List.mem_filter.mp ht
  have h2 : t ∈ sortDesc (scoredOf text q) := (List.take_sublist _ _).subset h1.1
  unfold sortDesc at h2
  have h3 : t ∈ scoredOf text q := (List.perm_insertionSort _ _).mem_iff.mp h2
  exact ⟨h3, by simpa using h1.2⟩

theorem pairwise_topScored (text q : Str) : (topScored text q).Pairwise scoredBefore := by
  have h := pairwise_sortDesc (scoredOf text q) (scoredOf_pairwise_idx text q)
  unfold topScored
  exact h.sublist ((List.filter_sublist _).trans (List.take_sublist _ _))

theorem topScored_length_le (text q : Str) : (topScored text q).length ≤ 5 := by
  unfold topScored
  exact le_trans (List.length_filter_le _ _) (List.length_take_le _ _)

theorem topScored_ne_nil {text q : Str}
    (hpos : ∃ p ∈ paragraphs text,
      0 < scoreParagraph (extractKeywords (searchTermOf q)) (toLow p)) :
    topScored text q ≠ [] := by
  obtain ⟨p, hp, hs⟩ := hpos
  obtain ⟨i, hi⟩ := mem_withIdx_of_mem 0 (paragraphs text) p hp
  have hmem : (⟨i, p, scoreParagraph (extractKeywords (searchTermOf q)) (toLow p)⟩ : Scored)
      ∈ scoredOf text q := by
    unfold scoredOf
    exact List.mem_map.mpr ⟨(i, p), hi, rfl⟩
  have hperm := List.perm_insertionSort (fun a b : Scored => b.score ≤ a.score) (scoredOf text q)
  have hmem2 : (⟨i, p, scoreParagraph (extractKeywords (searchTermOf q)) (toLow p)⟩ : Scored)
      ∈ sortDesc (scoredOf text q) := by
    unfold sortDesc
    exact hperm.mem_iff.mpr hmem
  rcases hsd : sortDesc (scoredOf text q) with _ | ⟨h0, rest⟩
  · rw [hsd] at hmem2; cases hmem2
  · have hpw := pairwise_sortDesc (scoredOf text q) (scoredOf_pairwise_idx text q)
    rw [hsd] at hpw hmem2
    have hhead : 0 < h0.score := by
      rcases List.mem_cons.mp hmem2 with heq | hmem3
      · rw [← heq]
        exact hs
      · have := (List.pairwise_cons.mp hpw).1 _ hmem3
        unfold scoredBefore at this
        simp only at this
        omega
    have hh5 : h0 ∈ (sortDesc (scoredOf text q)).take 5 := by
      rw [hsd]
      rw [List.take_succ_cons]
      exact List.mem_cons_self _ _
    have : h0 ∈ topScored text q := by
      unfold topScored
      exact List.mem_filter.mpr ⟨hh5, by simpa using hhead⟩
    exact List.ne_nil_of_mem this

/-! ### Lemmas about page collection -/

theorem collectPagesAux_cons (pcs : List PageContent) (acc : List Nat) (p : Str)
    (rel : List Str) :
    collectPagesAux pcs acc (p :: rel) = collectPagesAux pcs (recordPage pcs acc p) rel := rfl

theorem mem_collectPagesAux (pcs : List PageContent) :
    ∀ (rel : List Str) (acc : List Nat) (n : Nat),
      n ∈ collectPagesAux pcs acc rel ↔
        n ∈ acc ∨ ∃ p ∈ rel, firstPageFor pcs p = some n := by
  intro rel
  induction rel with
  | nil =>
    intro acc n
    simp [collectPagesAux]
  | cons p rel ih =>
    intro acc n
    rw [collectPagesAux_cons, ih]
    unfold recordPage
    rcases hfp : firstPageFor pcs p with _ | m
    · dsimp only
      constructor
      · rintro (h | ⟨x, hx, hfx⟩)
        · exact Or.inl h
        · exact Or.inr ⟨x, List.mem_cons_of_mem _ hx, hfx⟩
      · rintro (h | ⟨x, hx, hfx⟩)
        · exact Or.inl h
        · rcases List.mem_cons.mp hx with rfl | hx2
          · rw [hfp] at hfx; cases hfx
          · exact Or.inr ⟨x, hx2, hfx⟩
    · dsimp only
      by_cases hm : m ∈ acc
      · rw [if_pos hm]
        constructor
        · rintro (h | ⟨x, hx, hfx⟩)
          · exact Or.inl h
          · exact Or.inr ⟨x, List.mem_cons_of_mem _ hx, hfx⟩
        · rintro (h | ⟨x, hx, hfx⟩)
          · exact Or.inl h
          · rcases List.mem_cons.mp hx with rfl | hx2
            · rw [hfp] at hfx
              injection hfx with hmn
              subst hmn
              exact Or.inl hm
            · exact Or.inr ⟨x, hx2, hfx⟩
      · rw [if_neg hm]
        constructor
        · rintro (h | ⟨x, hx, hfx⟩)
          · rcases List.mem_append.mp h with h2 | h2
            · exact Or.inl h2
            · have : n = m := by simpa using h2
              subst this
              exact Or.inr ⟨p, List.mem_cons_self _ _, hfp⟩
          · exact Or.inr ⟨x, List.mem_cons_of_mem _ hx, hfx⟩
        · rintro (h | ⟨x, hx, hfx⟩)
          · exact Or.inl (List.mem_append.mpr (Or.inl h))
          · rcases List.mem_cons.mp hx with rfl | hx2
            · rw [hfp] at hfx
              injection hfx with hmn
              subst hmn
              exact Or.inl (List.mem_append.mpr (Or.inr (by simp)))
            · exact Or.inr ⟨x, hx2, hfx⟩

theorem nodup_collectPagesAux (pcs : List PageContent) :
    ∀ (rel : List Str) (acc : List Nat), acc.Nodup → (collectPagesAux pcs acc rel).Nodup := by
  intro rel
  induction rel with
  | nil =>
    intro acc h
    exact h
  | cons p rel ih =>
    intro acc hacc
    rw [collectPagesAux_cons]
    apply ih
    unfold recordPage
    rcases firstPageFor pcs p with _ | m
    · exact hacc
    · dsimp only
      by_cases hm : m ∈ acc
      · rw [if_pos hm]; exact hacc
      · rw [if_neg hm]
        rw [List.nodup_append]
        exact ⟨hacc, List.nodup_singleton _, by simpa using hm⟩

/-! ### Remaining helper lemmas -/

theorem mem_locatePages (rel : List Str) (pcs : List PageContent) (n : Nat) :
    n ∈ locatePages rel pcs ↔ ∃ p ∈ rel, firstPageFor pcs p = some n := by
  unfold locatePages sortAsc
  rw [(List.perm_insertionSort _ _).mem_iff]
  unfold collectPages
  rw [mem_collectPagesAux]
  simp

theorem locatePages_pairwise_lt (rel : List Str) (pcs : List PageContent) :
    (locatePages rel pcs).Pairwise (fun a b => a < b) := by
  have hle : (locatePages rel pcs).Pairwise (fun a b => a ≤ b) :=
    List.sorted_insertionSort _ _
  have hnd : (locatePages rel pcs).Nodup := by
    have h1 := nodup_collectPagesAux pcs rel [] List.nodup_nil
    unfold locatePages sortAsc
    exact (List.perm_insertionSort _ _).nodup_iff.mpr h1
  exact (hle.and hnd).imp (fun h => lt_of_le_of_ne h.1 h.2)

theorem locatePages_nil_pcs (rel : List Str) : locatePages rel [] = [] := by
  have h : ∀ (rel' : List Str) (acc : List Nat), collectPagesAux [] acc rel' = acc := by
    intro rel'
    induction rel' with
    | nil => intro acc; rfl
    | cons p r ih =>
      intro acc
      rw [collectPagesAux_cons, ih]
      rfl
  unfold locatePages collectPages
  rw [h]
  rfl

theorem dropWhile_replicate_of_neg {p : Char → Bool} {c : Char} (h : p c = false)
    (n : Nat) : (List.replicate n c).dropWhile p = List.replicate n c := by
  rw [List.dropWhile_replicate]
  simp [h]

theorem trim_replicate_a (n : Nat) :
    trim (List.replicate n 'a') = List.replicate n 'a' := by
  unfold trim
  rw [dropWhile_replicate_of_neg (by decide) n, List.reverse_replicate,
      dropWhile_replicate_of_neg (by decide) n, List.reverse_replicate]

theorem splitBlankAux_no_newline :
    ∀ (l acc : Str), ('\n' ∈ l → False) → splitBlankAux false acc l = [acc.reverse ++ l] := by
  intro l
  induction l with
  | nil =>
    intro acc _
    simp [splitBlankAux]
  | cons c rest ih =>
    intro acc h
    have hc : c = '\n' → False := fun hh => h (hh ▸ List.mem_cons_self _ _)
    have h2 : '\n' ∈ rest → False := fun hh => h (List.mem_cons_of_mem _ hh)
    rw [splitBlankAux]
    · rw [ih (c :: acc) h2]
      simp
    · intro rest' hcn _
      exact hc hcn

theorem paragraphs_replicate_a (n : Nat) (hn : n ≠ 0) :
    paragraphs (List.replicate n 'a') = [List.replicate n 'a'] := by
  unfold paragraphs splitBlank
  rw [splitBlankAux_no_newline _ []
      (fun h => by
        have h2 := List.eq_of_mem_replicate h
        exact absurd h2 (by decide))]
  simp [trim_replicate_a, Nat.pos_of_ne_zero hn]

theorem countOccurAux_replicate_ne {a c0 : Char} {nd : Str} (hne : c0 = a → False) :
    ∀ k, countOccurAux (c0 :: nd) (List.replicate k a) 0 = 0 := by
  intro k
  induction k with
  | zero => rfl
  | succ k ih =>
    rw [List.replicate_succ, countOccurAux,
        if_neg (by
          simp only [isLeading, Bool.and_eq_true, decide_eq_true_eq]
          rintro ⟨hh, -⟩
          exact hne hh)]
    exact ih

theorem countOccur_replicate_summary (k : Nat) :
    countOccur (("summary").toList) (List.replicate k 'a') = 0 := by
  unfold countOccur
  rw [if_neg (by decide)]
  exact countOccurAux_replicate_ne (by decide) k

theorem containsSub_replicate_a_summary (k : Nat) :
    containsSub (List.replicate k 'a') (("summary").toList) = false := by
  by_contra h
  rw [Bool.not_eq_false] at h
  have h2 := mem_of_containsSub h 's' (by decide)
  have h3 := List.eq_of_mem_replicate h2
  exact absurd h3 (by decide)

theorem scoreParagraph_single (kw pLow : Str) (h1 : countOccur kw pLow = 0)
    (h2 : containsSub pLow kw = false) : scoreParagraph [kw] pLow = 0 := by
  unfold scoreParagraph
  simp [h1, h2]

theorem score_replicate_a_summary (k : Nat) :
    scoreParagraph (extractKeywords (searchTermOf (("summary").toList)))
      (toLow (List.replicate k 'a')) = 0 := by
  have hkw : extractKeywords (searchTermOf (("summary").toList)) = [("summary").toList] := by
    decide
  have hlow : toLow (List.replicate k 'a') = List.replicate k 'a' := by
    unfold toLow
    rw [List.map_replicate, show ('a').toLower = 'a' from by decide]
  rw [hkw, hlow]
  exact scoreParagraph_single _ _ (countOccur_replicate_summary k)
    (containsSub_replicate_a_summary k)

/-! ### Claim theorems -/

/-- C1 counterexample: the question "a.c" is interpolated unescaped, so the
source's `.` acts as a wildcard: for the document "a.c: hi\n\nabc: hi" the
retrieval returns both paragraphs although only "a.c: hi" contains a
heading-style occurrence of the question text itself — the claim's
"exactly those matching paragraphs" is false of the program. -/
theorem claim1_cex :
    litHeadingMatch (searchTermOf ("a.c".toList)) ("abc: hi".toList) = false
    ∧ (paragraphs ("a.c: hi\n\nabc: hi".toList)).filter
        (fun p => litHeadingMatch (searchTermOf ("a.c".toList)) p)
      = [("a.c: hi".toList)]
    ∧ findRelevantContextNav ("a.c: hi\n\nabc: hi".toList) [] ("a.c".toList)
        = some ⟨("a.c: hi\n\nabc: hi".toList), []⟩
    ∧ ("a.c: hi\n\nabc: hi".toList : Str) ≠ joinBlank [("a.c: hi".toList)] := by
  refine ⟨by decide, by decide, by decide, by decide⟩

/-- C1 (amended): for questions whose lowercased, trimmed text is free of
regex metacharacters — the interpolated pattern is then a valid regex that
matches the question text literally and cannot throw — if at least one
paragraph contains a heading-style occurrence of the whole question text,
both retrieval lineages return exactly those matching paragraphs (the filter
of the paragraph list, hence in original document order) joined as the
context; no keyword-frequency scoring takes part in this stage. -/
theorem claim1_heading_precedence (text : Str) (pcs : List PageContent) (q : Str)
    (hmeta : regexMetaFree (searchTermOf q) = true)
    (h : exactMatchesNav text q ≠ []) :
    findRelevantContextNav text pcs q
      = some ⟨joinBlank (exactMatchesNav text q),
              locatePages (exactMatchesNav text q) pcs⟩
    ∧ findRelevantContextPdf text q = some (joinBlank (exactMatchesNav text q))
    ∧ exactMatchesNav text q
        = (paragraphs text).filter (fun p => litHeadingMatch (searchTermOf q) p) := by
  have htrim : trim text ≠ [] := by
    obtain ⟨p, hp⟩ := List.exists_mem_of_ne_nil _ h
    have hp2 : p ∈ paragraphs text := (List.mem_filter.mp hp).1
    exact trim_ne_nil_of_mem_paragraphs hp2
  have hsupp := regexSupported_of_metaFree hmeta
  have hrel : relevantParagraphsNav text q = exactMatchesNav text q := by
    unfold relevantParagraphsNav
    rw [if_neg h]
  have hrelne : relevantParagraphsNav text q ≠ [] := by
    rw [hrel]; exact h
  refine ⟨?_, ?_, exactMatchesNav_eq_lit hmeta⟩
  · unfold findRelevantContextNav
    rw [if_neg htrim, if_neg (not_not_intro hsupp), if_neg hrelne, hrel]
  · unfold findRelevantContextPdf
    rw [if_neg htrim, if_neg (not_not_intro hsupp), if_neg hrelne, hrel]

theorem claim1_witness :
    regexMetaFree (searchTermOf ("bots".toList)) = true
    ∧ exactMatchesNav ("1. Bots: machines\n\nOther stuff here".toList) ("bots".toList) ≠ []
    ∧ (findRelevantContextNav ("1. Bots: machines\n\nOther stuff here".toList) []
          ("bots".toList)
        = some ⟨joinBlank (exactMatchesNav ("1. Bots: machines\n\nOther stuff here".toList)
              ("bots".toList)),
            locatePages (exactMatchesNav ("1. Bots: machines\n\nOther stuff here".toList)
              ("bots".toList)) []⟩
      ∧ findRelevantContextPdf ("1. Bots: machines\n\nOther stuff here".toList)
          ("bots".toList)
        = some (joinBlank (exactMatchesNav ("1. Bots: machines\n\nOther stuff here".toList)
            ("bots".toList)))
      ∧ exactMatchesNav ("1. Bots: machines\n\nOther stuff here".toList) ("bots".toList)
        = (paragraphs ("1. Bots: machines\n\nOther stuff here".toList)).filter
            (fun p => litHeadingMatch (searchTermOf ("bots".toList)) p)) :=
  ⟨by decide, by decide, claim1_heading_precedence _ [] _ (by decide) (by decide)⟩

/-- C6: a document that is empty or whitespace-only yields the empty context
and empty page list for every question, as a normal outcome — this guard runs
before the regex construction in the source, so no question can disturb it. -/
theorem claim6_empty_document (text : Str) (pcs : List PageContent) (q : Str)
    (h : trim text = []) :
    findRelevantContextNav text pcs q = some ⟨[], []⟩ := by
  unfold findRelevantContextNav
  rw [if_pos h]

theorem claim6_witness :
    trim ("   ".toList) = []
    ∧ findRelevantContextNav ("   ".toList) [] ("anything".toList) = some ⟨[], []⟩ :=
  ⟨by decide, claim6_empty_document _ [] _ (by decide)⟩

/-- C10 counterexample: for the question "a.c" (wildcard `.` once
interpolated) and the document "abc stuff\n\nxyz a.c xyz", no paragraph has a
heading-style occurrence of the question text itself, and "xyz a.c xyz"
contains the question as a substring — yet the program's heading stage fires
on "abc stuff" via the wildcard and returns it instead of the substring
match. -/
theorem claim10_cex :
    (paragraphs ("abc stuff\n\nxyz a.c xyz".toList)).filter
        (fun p => litHeadingMatch (searchTermOf ("a.c".toList)) p) = []
    ∧ containsSub (toLow ("xyz a.c xyz".toList)) (searchTermOf ("a.c".toList)) = true
    ∧ findRelevantContextNav ("abc stuff\n\nxyz a.c xyz".toList) [] ("a.c".toList)
        = some ⟨("abc stuff".toList), []⟩
    ∧ ("abc stuff".toList : Str) ≠ joinBlank [("xyz a.c xyz".toList)] := by
  refine ⟨by decide, by decide, by decide, by decide⟩

/-- C10 (amended): for questions whose lowercased, trimmed text is free of
regex metacharacters, when no heading-style match exists but some paragraph
contains the whole question as a substring, the context is exactly the join
of all such paragraphs in document order (the filter by whole-question
substring containment, with no bound and no keyword extraction); the heading
stage coincides with the claims' literal reading there, and an empty
question matches every paragraph. -/
theorem claim10_substring_stage (text : Str) (pcs : List PageContent) (q : Str)
    (hmeta : regexMetaFree (searchTermOf q) = true) :
    (exactMatchesNav text q = [] → relatedMatchesNav text q ≠ [] →
      findRelevantContextNav text pcs q
        = some ⟨joinBlank (relatedMatchesNav text q),
                locatePages (relatedMatchesNav text q) pcs⟩
      ∧ findRelevantContextPdf text q = some (joinBlank (relatedMatchesNav text q)))
    ∧ relatedMatchesNav text q =
        (paragraphs text).filter (fun p => containsSub (toLow p) (searchTermOf q))
    ∧ exactMatchesNav text q
        = (paragraphs text).filter (fun p => litHeadingMatch (searchTermOf q) p)
    ∧ relatedMatchesNav text [] = paragraphs text := by
  refine ⟨?_, rfl, exactMatchesNav_eq_lit hmeta, ?_⟩
  · intro hex hrel
    have htrim : trim text ≠ [] := by
      obtain ⟨p, hp⟩ := List.exists_mem_of_ne_nil _ hrel
      exact trim_ne_nil_of_mem_paragraphs (List.mem_filter.mp hp).1
    have hsupp := regexSupported_of_metaFree hmeta
    have hr : relevantParagraphsNav text q = relatedMatchesNav text q := by
      unfold relevantParagraphsNav
      rw [if_pos hex, if_neg hrel]
    have hrne : relevantParagraphsNav text q ≠ [] := by
      rw [hr]; exact hrel
    constructor
    · unfold findRelevantContextNav
      rw [if_neg htrim, if_neg (not_not_intro hsupp), if_neg hrne, hr]
    · unfold findRelevantContextPdf
      rw [if_neg htrim, if_neg (not_not_intro hsupp), if_neg hrne, hr]
  · unfold relatedMatchesNav
    rw [List.filter_eq_self]
    intro p _
    show containsSub (toLow p) (searchTermOf []) = true
    exact containsSub_nil _

theorem claim10_witness :
    regexMetaFree (searchTermOf ("cat".toList)) = true
    ∧ exactMatchesNav ("the cat sat".toList) ("cat".toList) = []
    ∧ relatedMatchesNav ("the cat sat".toList) ("cat".toList) ≠ []
    ∧ (findRelevantContextNav ("the cat sat".toList) [] ("cat".toList)
        = some ⟨joinBlank (relatedMatchesNav ("the cat sat".toList) ("cat".toList)),
                locatePages (relatedMatchesNav ("the cat sat".toList) ("cat".toList)) []⟩
      ∧ findRelevantContextPdf ("the cat sat".toList) ("cat".toList)
        = some (joinBlank (relatedMatchesNav ("the cat sat".toList) ("cat".toList)))) :=
  ⟨by decide, by decide, by decide,
    (claim10_substring_stage ("the cat sat".toList) [] ("cat".toList) (by decide)).1
      (by decide) (by decide)⟩

/-- C7 counterexample: with a nonempty document, an empty question does not
give an empty selection — the substring fallback matches every paragraph, so
the whole document is returned. -/
theorem claim7_cex :
    relevantParagraphsNav ("hello world".toList) [] = [("hello world".toList)]
    ∧ findRelevantContextNav ("hello world".toList) [] []
        = some ⟨("hello world".toList), []⟩
    ∧ ("hello world".toList : Str) ≠ [] := by
  refine ⟨by decide, by decide, by decide⟩

/-- C7 (amended): on an empty or whitespace-only document the retrieval
returns the empty result for every question (this path precedes the regex
construction in the source); an empty question never reaches the unmodelled
metacharacter domain and, on a nonempty document, selects every paragraph —
not an empty sequence. -/
theorem claim7_amended (text : Str) (pcs : List PageContent) (q : Str) :
    (trim text = [] → findRelevantContextNav text pcs q = some ⟨[], []⟩)
    ∧ relevantParagraphsNav text [] = paragraphs text
    ∧ findRelevantContextNav text pcs [] ≠ none := by
  refine ⟨?_, ?_, ?_⟩
  · intro h
    unfold findRelevantContextNav
    rw [if_pos h]
  · have hex : exactMatchesNav text [] = [] := by
      unfold exactMatchesNav
      rw [List.filter_eq_nil_iff]
      intro p _
      show ¬ headingMatch (searchTermOf []) p = true
      rw [show searchTermOf ([] : Str) = [] from rfl, headingMatch_nil]
      simp
    have hrel : relatedMatchesNav text [] = paragraphs text := by
      unfold relatedMatchesNav
      rw [List.filter_eq_self]
      intro p _
      show containsSub (toLow p) (searchTermOf []) = true
      exact containsSub_nil _
    unfold relevantParagraphsNav
    rw [hex, hrel, if_pos rfl]
    by_cases hp : paragraphs text = []
    · rw [if_pos hp, hp]
    · rw [if_neg hp]
  · unfold findRelevantContextNav
    by_cases ht : trim text = []
    · rw [if_pos ht]
      simp
    · rw [if_neg ht,
          if_neg (not_not_intro (show regexSupported (searchTermOf ([] : Str)) = true
            from by decide))]
      by_cases hr : relevantParagraphsNav text [] = []
      · rw [if_pos hr]
        simp
      · rw [if_neg hr]
        simp

theorem claim7_witness :
    (trim ("  ".toList) = []
      ∧ findRelevantContextNav ("  ".toList) [] ("anything".toList) = some ⟨[], []⟩)
    ∧ relevantParagraphsNav ("x y".toList) [] = paragraphs ("x y".toList)
    ∧ findRelevantContextNav ("x y".toList) [] [] ≠ none :=
  ⟨⟨by decide, (claim7_amended ("  ".toList) [] ("anything".toList)).1 (by decide)⟩,
    (claim7_amended ("x y".toList) [] []).2.1,
    (claim7_amended ("x y".toList) [] ("unused".toList)).2.2⟩

/-- C8 counterexample: the sentinel interpolates the lowercased, trimmed
search term, not the raw question text (question "XYZQQ" appears as
"xyzqq"); a whitespace-only document also selects no paragraph yet returns
the empty result, not the sentinel; and for the question "h.llo" — which
matches no paragraph under the claims' literal reading of either stage —
the wildcard heading regex selects "hello x", so the paragraph, not the
sentinel, is returned. -/
theorem claim8_cex :
    findRelevantContextNav ("hello".toList) [] ("XYZQQ".toList)
        = some ⟨noInfoMsg ("xyzqq".toList), []⟩
    ∧ noInfoMsg ("xyzqq".toList) ≠ noInfoMsg ("XYZQQ".toList)
    ∧ relevantParagraphsNav (" ".toList) ("cat".toList) = []
    ∧ findRelevantContextNav (" ".toList) [] ("cat".toList) = some ⟨[], []⟩
    ∧ (paragraphs ("hello x".toList)).filter
        (fun p => litHeadingMatch (searchTermOf ("h.llo".toList)) p) = []
    ∧ containsSub (toLow ("hello x".toList)) (searchTermOf ("h.llo".toList)) = false
    ∧ findRelevantContextNav ("hello x".toList) [] ("h.llo".toList)
        = some ⟨("hello x".toList), []⟩ := by
  refine ⟨by decide, by decide, by decide, by decide, by decide, by decide, by decide⟩

/-- C8 (amended): for a document with non-whitespace content and a question
whose lowercased, trimmed text is free of regex metacharacters (a valid,
literally matching pattern), when neither the heading stage nor the substring
fallback selects any paragraph, the retrieval returns the sentinel message
with the lowercased, trimmed question interpolated and an empty page list; a
whitespace-only document returns the empty result instead. -/
theorem claim8_sentinel (text : Str) (pcs : List PageContent) (q : Str)
    (htrim : trim text ≠ [])
    (hmeta : regexMetaFree (searchTermOf q) = true)
    (hrel : relevantParagraphsNav text q = []) :
    findRelevantContextNav text pcs q = some ⟨noInfoMsg (searchTermOf q), []⟩ := by
  unfold findRelevantContextNav
  rw [if_neg htrim, if_neg (not_not_intro (regexSupported_of_metaFree hmeta)),
      if_pos hrel]

theorem claim8_witness :
    trim ("hello".toList) ≠ []
    ∧ regexMetaFree (searchTermOf ("XYZQQ".toList)) = true
    ∧ relevantParagraphsNav ("hello".toList) ("XYZQQ".toList) = []
    ∧ findRelevantContextNav ("hello".toList) [] ("XYZQQ".toList)
        = some ⟨noInfoMsg (searchTermOf ("XYZQQ".toList)), []⟩ :=
  ⟨by decide, by decide, by decide,
    claim8_sentinel _ [] _ (by decide) (by decide) (by decide)⟩

/-- C5: the page locator returns exactly the pages that are the first match,
in record order, of some selected paragraph's first 100 characters; the list
is strictly ascending (so deduplicated and sorted); an empty record list gives
an empty result; and on the claim's bots example the result is [2]. -/
theorem claim5_page_locator (rel : List Str) (pcs : List PageContent) :
    (∀ n, n ∈ locatePages rel pcs ↔ ∃ p ∈ rel, firstPageFor pcs p = some n)
    ∧ (∀ p, firstPageFor pcs p =
        (pcs.find? (fun pc => containsSub pc.text (p.take 100))).map PageContent.pageNum)
    ∧ (locatePages rel pcs).Pairwise (fun a b => a < b)
    ∧ locatePages rel [] = []
    ∧ locatePages [("Bots: a bot is a program".toList)]
        [⟨("Intro text about things".toList), 1⟩,
         ⟨("Bots: a bot is a program that performs tasks".toList), 2⟩] = [2] :=
  ⟨mem_locatePages rel pcs, fun _ => rfl, locatePages_pairwise_lt rel pcs,
    locatePages_nil_pcs rel, by decide⟩

/-- C3 counterexample: for the whitespace-only one-character document " "
(which is shorter than 8,000 characters) a summary question returns the empty
string, not the whole document as the claim requires. -/
theorem claim3_cex :
    containsSub (searchTermOf ("summary".toList)) ("summary".toList) = true
    ∧ ((" ".toList : Str)).length ≤ 8000
    ∧ findRelevantContextKW (" ".toList) ("summary".toList) = []
    ∧ (" ".toList : Str) ≠ [] := by
  refine ⟨by decide, by decide, by decide, by decide⟩

/-- C3 (amended): for a document with non-whitespace content, when the
lowercased question contains "summarize" or "summary", the context is the
first 8,000 characters of the document, or the whole document when it has at
most 8,000 characters. -/
theorem claim3_summarization (text q : Str) (htrim : trim text ≠ [])
    (hsum : containsSub (searchTermOf q) (("summarize").toList) = true
      ∨ containsSub (searchTermOf q) (("summary").toList) = true) :
    findRelevantContextKW text q =
      if 8000 < text.length then text.take 8000 else text := by
  have hc : (containsSub (searchTermOf q) (("summarize").toList)
      || containsSub (searchTermOf q) (("summary").toList)) = true := by
    rcases hsum with h | h
    · rw [h, Bool.true_or]
    · rw [h, Bool.or_true]
  unfold findRelevantContextKW
  rw [if_neg htrim, if_pos hc]

theorem claim3_witness :
    trim ("hi there".toList) ≠ []
    ∧ containsSub (searchTermOf ("Give me a SUMMARY".toList)) (("summary").toList) = true
    ∧ findRelevantContextKW ("hi there".toList) ("Give me a SUMMARY".toList)
        = (if 8000 < ("hi there".toList : Str).length
           then ("hi there".toList : Str).take 8000 else ("hi there".toList : Str)) :=
  ⟨by decide, by decide,
    claim3_summarization _ _ (by decide) (Or.inr (by decide))⟩

/-- C4 counterexample: (i) the non-empty whitespace-only document " " with a
zero-keyword question returns the empty string, not the whole document;
(ii) for a 5,001-character document whose every paragraph scores 0 against
the question "summary", the summarization branch returns the whole document
rather than its first 5,000 characters. -/
theorem claim4_cex :
    (extractKeywords (searchTermOf ("hi".toList)) = []
      ∧ findRelevantContextKW (" ".toList) ("hi".toList) = []
      ∧ (" ".toList : Str) ≠ [])
    ∧ (paragraphs (List.replicate 5001 'a') = [List.replicate 5001 'a']
      ∧ scoreParagraph (extractKeywords (searchTermOf ("summary".toList)))
          (toLow (List.replicate 5001 'a')) = 0
      ∧ findRelevantContextKW (List.replicate 5001 'a') ("summary".toList)
          = List.replicate 5001 'a'
      ∧ List.replicate 5001 'a' ≠ (List.replicate 5001 'a').take 5000) := by
  refine ⟨⟨by decide, by decide, by decide⟩, ?_, ?_, ?_, ?_⟩
  · exact paragraphs_replicate_a 5001 (by decide)
  · exact score_replicate_a_summary 5001
  · have htrim : trim (List.replicate 5001 'a') ≠ [] := by
      rw [trim_replicate_a]
      intro h
      have h2 := congrArg List.length h
      rw [List.length_replicate, List.length_nil] at h2
      omega
    unfold findRelevantContextKW
    rw [if_neg htrim, if_pos (by decide),
        if_neg (by rw [List.length_replicate]; omega)]
  · intro h
    have h2 := congrArg List.length h
    rw [List.length_take, List.length_replicate] at h2
    omega

/-- C4 (amended): for a document with non-whitespace content and a question
that is not a summarization request, if keyword extraction yields no keywords,
or no paragraph attains a strictly positive score, the context is the first
5,000 characters of the document (the whole document when it is shorter). -/
theorem claim4_prefix_fallback (text q : Str) (htrim : trim text ≠ [])
    (hs1 : containsSub (searchTermOf q) (("summarize").toList) = false)
    (hs2 : containsSub (searchTermOf q) (("summary").toList) = false)
    (hfall : extractKeywords (searchTermOf q) = []
      ∨ ∀ p ∈ paragraphs text,
          scoreParagraph (extractKeywords (searchTermOf q)) (toLow p) = 0) :
    findRelevantContextKW text q =
      if 5000 < text.length then text.take 5000 else text := by
  unfold findRelevantContextKW
  rw [if_neg htrim, if_neg (by rw [hs1, hs2]; simp)]
  rcases hfall with hk | hz
  · rw [if_pos hk]
  · by_cases hk : extractKeywords (searchTermOf q) = []
    · rw [if_pos hk]
    · rw [if_neg hk]
      have htop : topParagraphs text q = [] := by
        unfold topParagraphs
        rw [List.map_eq_nil_iff, List.eq_nil_iff_forall_not_mem]
        intro t ht
        have h1 := topScored_mem ht
        have h5 := h1.2
        rw [(mem_scoredOf h1.1).2, hz t.para (para_mem_of_mem_scoredOf h1.1)] at h5
        exact absurd h5 (lt_irrefl 0)
      rw [if_pos htop]

theorem claim4_witness :
    trim ("hello".toList) ≠ []
    ∧ extractKeywords (searchTermOf ("the".toList)) = []
    ∧ findRelevantContextKW ("hello".toList) ("the".toList)
        = (if 5000 < ("hello".toList : Str).length
           then ("hello".toList : Str).take 5000 else ("hello".toList : Str)) :=
  ⟨by decide, by decide,
    claim4_prefix_fallback _ _ (by decide) (by decide) (by decide)
      (Or.inl (by decide))⟩

/-- C2 counterexample: with keywords present, no summarization and a non-empty
document, when no paragraph scores positively the returned context is the
document prefix — a paragraph of score 0 — instead of a selection of
positively scored paragraphs (whose join would be empty here). -/
theorem claim2_cex :
    extractKeywords (searchTermOf ("zzz".toList)) = [("zzz".toList)]
    ∧ containsSub (searchTermOf ("zzz".toList)) (("summarize").toList) = false
    ∧ containsSub (searchTermOf ("zzz".toList)) (("summary").toList) = false
    ∧ paragraphs ("bbb".toList) = [("bbb".toList)]
    ∧ scoreParagraph (extractKeywords (searchTermOf ("zzz".toList)))
        (toLow ("bbb".toList)) = 0
    ∧ topParagraphs ("bbb".toList) ("zzz".toList) = []
    ∧ findRelevantContextKW ("bbb".toList) ("zzz".toList) = ("bbb".toList)
    ∧ joinBlank [] ≠ ("bbb".toList) := by
  refine ⟨by decide, by decide, by decide, by decide, by decide, by decide,
    by decide, by decide⟩

/-- C2 (amended): in the keyword-frequency stage (not a summarization request,
keywords non-empty) with at least one positively scoring paragraph, the
context is the join of the top paragraphs: at most 5 of them, each scored by
summed keyword occurrences plus twice the number of distinct keywords present,
each score positive, ordered by score descending with equal scores kept in
original document order (`scoredBefore` over document indices). -/
theorem claim2_keyword_stage (text q : Str)
    (hs1 : containsSub (searchTermOf q) (("summarize").toList) = false)
    (hs2 : containsSub (searchTermOf q) (("summary").toList) = false)
    (hkw : extractKeywords (searchTermOf q) ≠ [])
    (hpos : ∃ p ∈ paragraphs text,
      0 < scoreParagraph (extractKeywords (searchTermOf q)) (toLow p)) :
    findRelevantContextKW text q = joinBlank (topParagraphs text q)
    ∧ topParagraphs text q = (topScored text q).map Scored.para
    ∧ (topScored text q).length ≤ 5
    ∧ (∀ t ∈ topScored text q, 0 < t.score
        ∧ (paragraphs text).get? t.idx = some t.para
        ∧ t.score = scoreParagraph (extractKeywords (searchTermOf q)) (toLow t.para))
    ∧ (topScored text q).Pairwise scoredBefore := by
  have htopne := topScored_ne_nil hpos
  have htrim : trim text ≠ [] := by
    obtain ⟨p, hp, _⟩ := hpos
    exact trim_ne_nil_of_mem_paragraphs hp
  have htpne : topParagraphs text q ≠ [] := by
    unfold topParagraphs
    intro h
    rw [List.map_eq_nil_iff] at h
    exact htopne h
  refine ⟨?_, rfl, topScored_length_le text q, ?_, pairwise_topScored text q⟩
  · unfold findRelevantContextKW
    rw [if_neg htrim, if_neg (by rw [hs1, hs2]; simp), if_neg hkw, if_neg htpne]
  · intro t ht
    have h1 := topScored_mem ht
    have h2 := mem_scoredOf h1.1
    exact ⟨h1.2, h2.1, h2.2⟩

theorem claim2_witness :
    extractKeywords (searchTermOf ("cats".toList)) ≠ []
    ∧ 0 < scoreParagraph (extractKeywords (searchTermOf ("cats".toList)))
        (toLow ("cats are great".toList))
    ∧ (findRelevantContextKW ("cats are great\n\ndogs bark".toList) ("cats".toList)
        = joinBlank (topParagraphs ("cats are great\n\ndogs bark".toList)
            ("cats".toList))
      ∧ topParagraphs ("cats are great\n\ndogs bark".toList) ("cats".toList)
        = (topScored ("cats are great\n\ndogs bark".toList) ("cats".toList)).map
            Scored.para
      ∧ (topScored ("cats are great\n\ndogs bark".toList) ("cats".toList)).length ≤ 5
      ∧ (∀ t ∈ topScored ("cats are great\n\ndogs bark".toList) ("cats".toList),
          0 < t.score
          ∧ (paragraphs ("cats are great\n\ndogs bark".toList)).get? t.idx
              = some t.para
          ∧ t.score = scoreParagraph (extractKeywords (searchTermOf ("cats".toList)))
              (toLow t.para))
      ∧ (topScored ("cats are great\n\ndogs bark".toList)
          ("cats".toList)).Pairwise scoredBefore) :=
  ⟨by decide, by decide,
    claim2_keyword_stage ("cats are great\n\ndogs bark".toList) ("cats".toList)
      (by decide) (by decide) (by decide)
      ⟨("cats are great".toList), by decide, by decide⟩⟩

/-- C9 counterexample: the phrase "alpha beta" is produced for the question
"alpha the beta" even though "alpha" and "beta" are not consecutive in the
original (non-filtered) token sequence ["alpha", "the", "beta"]: the phrase
loop runs over the already-filtered keyword array. -/
theorem claim9_cex :
    ("alpha beta".toList) ∈ phrasesOf ("alpha the beta".toList)
    ∧ tokensOf ("alpha the beta".toList)
        = [("alpha".toList), ("the".toList), ("beta".toList)]
    ∧ ("alpha beta".toList) ∉ windowJoins (tokensOf ("alpha the beta".toList)) := by
  refine ⟨by decide, by decide, by decide⟩

theorem phrasesAux_window :
    ∀ (l : List Str) (ph : Str), ph ∈ phrasesAux l →
      ∃ mid, isWindowOf mid l ∧ (mid.length = 2 ∨ mid.length = 3)
        ∧ ph = joinSp mid ∧ ∀ w ∈ mid, ¬ w ∈ stopwordList := by
  intro l
  induction l using phrasesAux.induct with
  | case1 w1 w2 w3 rest ih =>
    intro ph hph
    rw [phrasesAux.eq_1] at hph
    rcases List.mem_append.mp hph with h12 | hrec
    · rcases List.mem_append.mp h12 with h1 | h2
      · by_cases hc : ¬ w1 ∈ stopwordList ∧ ¬ w2 ∈ stopwordList
        · rw [if_pos hc] at h1
          have heq : ph = w1 ++ ' ' :: w2 := by simpa using h1
          refine ⟨[w1, w2], ⟨[], w3 :: rest, by simp⟩, Or.inl rfl,
            by simpa [joinSp] using heq, ?_⟩
          intro w hw
          rcases List.mem_cons.mp hw with rfl | hw2
          · exact hc.1
          · rw [List.mem_singleton.mp hw2]
            exact hc.2
        · rw [if_neg hc] at h1
          cases h1
      · by_cases hc : ¬ w1 ∈ stopwordList ∧ ¬ w2 ∈ stopwordList ∧ ¬ w3 ∈ stopwordList
        · rw [if_pos hc] at h2
          have heq : ph = w1 ++ ' ' :: w2 ++ ' ' :: w3 := by simpa using h2
          refine ⟨[w1, w2, w3], ⟨[], rest, by simp⟩, Or.inr rfl,
            by simpa [joinSp] using heq, ?_⟩
          intro w hw
          rcases List.mem_cons.mp hw with rfl | hw2
          · exact hc.1
          rcases List.mem_cons.mp hw2 with rfl | hw3
          · exact hc.2.1
          · rw [List.mem_singleton.mp hw3]
            exact hc.2.2
        · rw [if_neg hc] at h2
          cases h2
    · obtain ⟨mid, ⟨s, t, hst⟩, hlen, hjoin, hstop⟩ := ih ph hrec
      exact ⟨mid, ⟨w1 :: s, t, by simpa using hst⟩, hlen, hjoin, hstop⟩
  | case2 w1 w2 hc =>
    intro ph hph
    rw [phrasesAux.eq_2, if_pos hc] at hph
    have heq : ph = w1 ++ ' ' :: w2 := by simpa using hph
    refine ⟨[w1, w2], ⟨[], [], by simp⟩, Or.inl rfl,
      by simpa [joinSp] using heq, ?_⟩
    intro w hw
    rcases List.mem_cons.mp hw with rfl | hw2
    · exact hc.1
    · rw [List.mem_singleton.mp hw2]
      exact hc.2
  | case3 w1 w2 hc =>
    intro ph hph
    rw [phrasesAux.eq_2, if_neg hc] at hph
    cases hph
  | case4 l hne1 hne2 =>
    intro ph hph
    rw [phrasesAux] at hph
    · cases hph
    · exact hne1
    · exact hne2

/-- C9 (amended): every phrase produced by query analysis is a space-joined
sequence of 2 or 3 tokens that are consecutive in the *filtered, lowercased*
keyword sequence (`wordsOf`, after the length and stopword filters), none of
which is a stopword — not in the original token sequence of the question. -/
theorem claim9_phrases (q : Str) :
    ∀ ph ∈ phrasesOf q,
      ∃ mid, isWindowOf mid (wordsOf q) ∧ (mid.length = 2 ∨ mid.length = 3)
        ∧ ph = joinSp mid ∧ ∀ w ∈ mid, ¬ w ∈ stopwordList := by
  intro ph hph
  exact phrasesAux_window (wordsOf q) ph hph

theorem claim9_witness :
    ("machine learning".toList) ∈ phrasesOf ("machine learning basics".toList)
    ∧ ∃ mid, isWindowOf mid (wordsOf ("machine learning basics".toList))
        ∧ (mid.length = 2 ∨ mid.length = 3)
        ∧ ("machine learning".toList) = joinSp mid
        ∧ ∀ w ∈ mid, ¬ w ∈ stopwordList :=
  ⟨by decide, claim9_phrases ("machine learning basics".toList)
    ("machine learning".toList) (by decide)⟩
